import Mathlib

set_option maxRecDepth 16000

/-!
Verification of the terragrunt `configstack` stack scheduler
(`src/configstack/stack.go`).

The development shallowly embeds the Go code: Go slices become `List`,
Go maps become association lists (the scheduler's map iteration order is
modelled by the list order, and order-independence is proved where the
spec claims determinism), byte strings become `String` compared by the
byte-wise order `strLe` below (Go compares strings byte by byte), and
the possibly non-terminating grouping loop becomes a fuelled function
returning `none` when the loop is still running after the given number
of iterations.

Functions of this repository that are referenced by `stack.go` but whose
source is not part of the excerpt (`toRunningModules`, `CheckForCycles`,
`ResolveTerraformModules`, the `RunModules*` family) are modelled from
the specification and marked as such in their doc comments.
-/

/-! ### Byte-wise string order (Go's `<` on strings) -/

/-- Lexicographic comparison of character lists by code point, the
shallow embedding of Go's byte-wise string comparison used by
`sort.Slice` in `getModuleRunGraph` and by `encoding/json` key sorting. -/
def charListLe : List Char → List Char → Bool
  | [], _ => true
  | _ :: _, [] => false
  | a :: as, b :: bs =>
    if a.toNat < b.toNat then true
    else if b.toNat < a.toNat then false
    else charListLe as bs

/-- Byte-wise `≤` on strings (Go string order). -/
def strLe (a b : String) : Bool := charListLe a.data b.data

theorem charListLe_cons_iff (a b : Char) (as bs : List Char) :
    charListLe (a :: as) (b :: bs) = true ↔
      a.toNat < b.toNat ∨ (a.toNat = b.toNat ∧ charListLe as bs = true) := by
  simp only [charListLe]
  split_ifs with h1 h2
  · simp [h1]
  · constructor
    · intro hh; exact absurd hh (by simp)
    · intro hh
      rcases hh with h | ⟨he, _⟩ <;> omega
  · have h3 : a.toNat = b.toNat := by omega
    simp [h1, h3]

theorem charListLe_total : ∀ l1 l2, charListLe l1 l2 = true ∨ charListLe l2 l1 = true := by
  intro l1
  induction l1 with
  | nil => intro l2; left; rfl
  | cons a as ih =>
    intro l2
    cases l2 with
    | nil => right; rfl
    | cons b bs =>
      rw [charListLe_cons_iff, charListLe_cons_iff]
      rcases Nat.lt_trichotomy a.toNat b.toNat with h | h | h
      · left; left; exact h
      · rcases ih bs with h3 | h3
        · left; right; exact ⟨h, h3⟩
        · right; right; exact ⟨h.symm, h3⟩
      · right; left; exact h

theorem char_eq_of_toNat_eq {a b : Char} (h : a.toNat = b.toNat) : a = b := by
  rw [← Char.ofNat_toNat a, ← Char.ofNat_toNat b, h]

theorem charListLe_antisymm :
    ∀ l1 l2, charListLe l1 l2 = true → charListLe l2 l1 = true → l1 = l2 := by
  intro l1
  induction l1 with
  | nil =>
    intro l2 _ h2
    cases l2 with
    | nil => rfl
    | cons b bs => simp [charListLe] at h2
  | cons a as ih =>
    intro l2 h1 h2
    cases l2 with
    | nil => simp [charListLe] at h1
    | cons b bs =>
      rw [charListLe_cons_iff] at h1 h2
      rcases h1 with h1 | ⟨he1, hr1⟩
      · rcases h2 with h2 | ⟨he2, _⟩ <;> omega
      · rcases h2 with h2 | ⟨_, hr2⟩
        · omega
        · rw [char_eq_of_toNat_eq he1, ih bs hr1 hr2]

theorem charListLe_trans : ∀ l1 l2 l3, charListLe l1 l2 = true → charListLe l2 l3 = true →
    charListLe l1 l3 = true := by
  intro l1
  induction l1 with
  | nil => intro l2 l3 _ _; rfl
  | cons a as ih =>
    intro l2 l3 h1 h2
    cases l2 with
    | nil => simp [charListLe] at h1
    | cons b bs =>
      cases l3 with
      | nil => simp [charListLe] at h2
      | cons c cs =>
        rw [charListLe_cons_iff] at h1 h2 ⊢
        rcases h1 with h1 | ⟨he1, hr1⟩
        · rcases h2 with h2 | ⟨he2, _⟩
          · left; omega
          · left; omega
        · rcases h2 with h2 | ⟨he2, hr2⟩
          · left; omega
          · right; exact ⟨by omega, ih bs cs hr1 hr2⟩

theorem strLe_antisymm {a b : String} (h1 : strLe a b = true) (h2 : strLe b a = true) :
    a = b := by
  cases a; cases b
  simp only [strLe] at h1 h2
  exact congrArg String.mk (charListLe_antisymm _ _ h1 h2)

theorem strLe_total (a b : String) : strLe a b = true ∨ strLe b a = true :=
  charListLe_total a.data b.data

theorem strLe_trans {a b c : String} (h1 : strLe a b = true) (h2 : strLe b c = true) :
    strLe a c = true :=
  charListLe_trans a.data b.data c.data h1 h2

/-! ### Data model -/

/-- Embedding of `TerraformModule` as used by `stack.go`: its path
(the identity key), the paths of its declared dependencies, and the
`AssumeAlreadyApplied` flag. -/
structure TerraformModule where
  path : String
  dependencies : List String
  assumeAlreadyApplied : Bool
deriving DecidableEq, Repr

/-- Embedding of the `runningModule` graph node: a module together with
its mutable set of remaining dependency paths (the Go
`Dependencies map[string]*runningModule`, modelled by the list of its
keys). -/
structure runningModule where
  module : TerraformModule
  dependencies : List String
deriving DecidableEq, Repr

/-- Embedding of `Stack`: root path plus resolved modules in discovery
order. -/
structure Stack where
  path : String
  modules : List TerraformModule
deriving DecidableEq, Repr

def CommandNameDestroy : String := "destroy"

def CommandNameApply : String := "apply"

def CommandNamePlan : String := "plan"

/-- The dependency direction selector passed to `toRunningModules`. -/
inductive DependencyOrder where
  | NormalOrder
  | ReverseOrder
deriving DecidableEq, Repr

/-- The paths of the nodes of a running-module graph (the key set of the
Go `map[string]*runningModule`). -/
def graphPaths (g : List runningModule) : List String := g.map (fun rm => rm.module.path)

/-- Whether every declared dependency path of every module resolves to
some module of the set (no dangling reference). -/
def dependencyPathsPresent (modules : List TerraformModule) : Bool :=
  modules.all fun m => m.dependencies.all fun d => modules.any fun m2 => m2.path == d

/-- Forward graph: each node's remaining dependencies are the module's
own declared dependency paths. -/
def forwardNodes (modules : List TerraformModule) : List runningModule :=
  modules.map fun m => ⟨m, m.dependencies⟩

/-- Reverse graph: node `D` gains every module `M` that declares a
dependency on `D` as a remaining dependency. -/
def reverseNodes (modules : List TerraformModule) : List runningModule :=
  modules.map fun m =>
    ⟨m, (modules.filter fun m2 => m2.dependencies.contains m.path).map fun m2 => m2.path⟩

/-- Modelled from the spec: `toRunningModules` (the Dependency Graph
Builder of spec §4.1), whose Go source is not part of the excerpt.
Given the stack's modules and a direction flag it produces the node map:
forward mode keeps each module's declared dependency set, reverse mode
inverts every edge, and a declared dependency with no corresponding
module is a fatal graph-construction error. -/
def toRunningModules (modules : List TerraformModule) :
    DependencyOrder → Except String (List runningModule) := fun order =>
  if dependencyPathsPresent modules then
    match order with
    | .NormalOrder => .ok (forwardNodes modules)
    | .ReverseOrder => .ok (reverseNodes modules)
  else
    .error "unresolved dependency reference"

/-! ### The grouping loop of `getModuleRunGraph` (stack.go lines 233-289) -/

/-- `maxDepth` from `getModuleRunGraph`: the hard cap on the number of
captured groups. -/
def maxDepth : Nat := 1000

/-- Whether a node is removed from the graph in the current iteration:
either its module is assumed already applied, or it has no remaining
dependencies (the first two cases of the switch at lines 253-258). -/
def readyNode (rm : runningModule) : Bool :=
  rm.module.assumeAlreadyApplied || rm.dependencies.isEmpty

def pathLe (a b : TerraformModule) : Prop := strLe a.path b.path = true

instance : DecidableRel pathLe := fun a b => instDecidableEqBool (strLe a.path b.path) true

/-- The sort at lines 276-281: sort the current group by module path
(Go `sort.Slice` with byte-wise `<`; modelled by an insertion sort with
respect to the corresponding total order). -/
def sortByPath (l : List TerraformModule) : List TerraformModule := l.insertionSort pathLe

/-- One iteration of the grouping loop body (lines 240-287): collect the
paths to remove (`removeDep`), the modules deployed this iteration
(sorted by path), and the remaining graph with the removed paths deleted
from every surviving node's dependency set. -/
def runGraphStep (graph : List runningModule) : List TerraformModule × List runningModule :=
  let removeDep := graphPaths (graph.filter readyNode)
  let currentIterationDeploy :=
    (graph.filter fun rm => !rm.module.assumeAlreadyApplied && rm.dependencies.isEmpty).map
      fun rm => rm.module
  let next :=
    (graph.filter fun rm => !readyNode rm).map fun rm =>
      ⟨rm.module, rm.dependencies.filter fun d => !removeDep.contains d⟩
  (sortByPath currentIterationDeploy, next)

/-- The grouping loop (`for len(moduleRunGraph) > 0 && len(groups) < maxDepth`),
with explicit fuel. `none` means the loop is still running after `fuel`
iterations; since each iteration either removes a node or leaves the
state unchanged, `none` at fuel `length + 1` means the Go loop never
terminates. An iteration appends its group only when the group is
non-empty (line 285-287). -/
def runGraphAux (fuel : Nat) (graph : List runningModule)
    (groups : List (List TerraformModule)) : Option (List (List TerraformModule)) :=
  if graph.isEmpty ∨ maxDepth ≤ groups.length then
    some groups
  else
    match fuel with
    | 0 => none
    | fuel' + 1 =>
      let p := runGraphStep graph
      runGraphAux fuel' p.2 (if p.1.isEmpty then groups else groups ++ [p.1])

/-- `getModuleRunGraph` (lines 220-290): choose the edge direction from
the command (reversed for destroy, forward otherwise), build the node
map, and run the grouping loop. The result is `.error` when graph
construction fails, `.ok none` when the loop diverges, and
`.ok (some groups)` when the loop returns `groups`. -/
def getModuleRunGraph (stack : Stack) (terraformCommand : String) :
    Except String (Option (List (List TerraformModule))) :=
  match toRunningModules stack.modules
      (if terraformCommand == CommandNameDestroy then .ReverseOrder else .NormalOrder) with
  | .error e => .error e
  | .ok graph => .ok (runGraphAux (graph.length + 1) graph [])

/-! ### JSON deploy order (stack.go lines 62-84) -/

/-- The group label used by `JsonModuleDeployOrder`: "Group 1", "Group 2", … -/
def groupLabel (i : Nat) : String := "Group " ++ toString (i + 1)

def keyLe (a b : String × List String) : Prop := strLe a.1 b.1 = true

instance : DecidableRel keyLe := fun a b => instDecidableEqBool (strLe a.1 b.1) true

/-- The key order in which Go's `encoding/json` emits a
`map[string][]string`: keys sorted by byte-wise string order. -/
def sortByKey (l : List (String × List String)) : List (String × List String) :=
  l.insertionSort keyLe

/-- The label/value pairs built by the loop at lines 72-78: group at
position `i` (0-based) is labelled `groupLabel i` and valued by its
modules' paths. -/
def labelGroups (i : Nat) : List (List TerraformModule) → List (String × List String)
  | [] => []
  | group :: rest => (groupLabel i, group.map fun m => m.path) :: labelGroups (i + 1) rest

/-- `JsonModuleDeployOrder` (lines 64-84): build the label → module-path
map from the run graph and marshal it. The observable modelled here is
the ordered sequence of key/value pairs of the emitted JSON object
(Go's `encoding/json` sorts the keys of a map lexicographically by byte
order). -/
def JsonModuleDeployOrder (stack : Stack) (terraformCommand : String) :
    Except String (Option (List (String × List String))) :=
  match getModuleRunGraph stack terraformCommand with
  | .error e => .error e
  | .ok none => .ok none
  | .ok (some runGraph) => .ok (some (sortByKey (labelGroups 0 runGraph)))

/-! ### Plan error summary (stack.go lines 143-167) -/

/-- Substring containment over character lists, the embedding of Go's
`strings.Contains`. -/
def listContainsSub (l sub : List Char) : Bool :=
  (List.range (l.length + 1)).any fun i => sub.isPrefixOf (l.drop i)

/-- Embedding of `strings.Contains s sub`. -/
def strContains (s sub : String) : Bool := listContainsSub s.data sub.data

/-- The first signature scanned for by `summarizePlanAllErrors`. -/
def planErrorSig : String := "Error running plan:"

/-- An apostrophe character (code point 39). -/
def squote : Char := Char.ofNat 39

/-- The remote-state resource signature scanned for by
`summarizePlanAllErrors` (contains an apostrophe before `data.`). -/
def remoteStateSig : String :=
  ": Resource " ++ String.mk [squote] ++ "data.terraform_remote_state."

/-- `summarizePlanAllErrors` (lines 143-167), modelled by its observable
output: the paths of the modules for which the additional remote-state
hint is emitted. A stream is skipped when empty; the hint for module
`i` is emitted exactly when stream `i` contains both signatures. -/
def summarizePlanAllErrors : List TerraformModule → List String → List String
  | m :: ms, o :: os =>
    if o.length = 0 then summarizePlanAllErrors ms os
    else if strContains o planErrorSig then
      if strContains o remoteStateSig then m.path :: summarizePlanAllErrors ms os
      else summarizePlanAllErrors ms os
    else summarizePlanAllErrors ms os
  | _, _ => []

/-! ### Run dispatch (stack.go lines 130-137) -/

/-- The execution-relevant options consumed by `Stack.Run`'s dispatch. -/
structure TerragruntOptions where
  terraformCommand : String
  ignoreDependencyOrder : Bool
  parallelism : Nat
deriving DecidableEq, Repr

/-- The three execution variants `Stack.Run` can dispatch to. -/
inductive RunVariant where
  | IgnoreOrder
  | ReverseOrder
  | NormalOrder
deriving DecidableEq, Repr

/-- The final dispatch switch of `Stack.Run` (lines 130-137):
`IgnoreDependencyOrder` selects `RunModulesIgnoreOrder`; otherwise the
destroy command selects `RunModulesReverseOrder`; every other command
selects `RunModules`. -/
def runDispatch (terragruntOptions : TerragruntOptions) : RunVariant :=
  if terragruntOptions.ignoreDependencyOrder then .IgnoreOrder
  else if terragruntOptions.terraformCommand == CommandNameDestroy then .ReverseOrder
  else .NormalOrder

/-! ### Stack construction and cycle check (stack.go lines 294-340) -/

/-- The declared dependency paths of the module with path `p`, or `[]`
if no module has that path. -/
def dependenciesOf (modules : List TerraformModule) (p : String) : List String :=
  match modules.find? (fun m => m.path == p) with
  | some m => m.dependencies
  | none => []

/-- One step of dependency reachability: the declared dependencies of
all paths of the frontier. -/
def reachStep (modules : List TerraformModule) (frontier : List String) : List String :=
  (frontier.flatMap (dependenciesOf modules)).dedup

/-- The frontier reached after exactly `n` dependency steps. -/
def reachIter (modules : List TerraformModule) : Nat → List String → List String
  | 0, frontier => frontier
  | n + 1, frontier => reachIter modules n (reachStep modules frontier)

/-- Whether some module's path can reach itself in at least one and at
most `length` declared-dependency steps, i.e. whether the declared
dependency relation contains a cycle. -/
def hasCycle (modules : List TerraformModule) : Bool :=
  modules.any fun m =>
    (List.range modules.length).any fun k => (reachIter modules (k + 1) [m.path]).contains m.path

/-- Modelled from the spec: `CheckForCycles` (spec §4.2), whose Go
source is not part of the excerpt. Its contract is to determine whether
the declared (non-reversed) dependency relation contains a cycle and to
return a `DependencyCycle` error listing offending module ids when it
does; it is modelled by that contract, with the error payload carrying
the modules that lie on a cycle. -/
def CheckForCycles (modules : List TerraformModule) : Except (List String) Unit :=
  if hasCycle modules then
    .error ((modules.filter fun m =>
      (List.range modules.length).any fun k =>
        (reachIter modules (k + 1) [m.path]).contains m.path).map fun m => m.path)
  else
    .ok ()

/-- The error surface of stack construction. -/
inductive StackError where
  | noTerraformModulesFound
  | resolveModulesError (msg : String)
  | dependencyCycle (cyclePaths : List String)
deriving DecidableEq, Repr

/-- `createStackForTerragruntConfigPaths` (lines 294-330): fail with the
`NoTerraformModulesFound` sentinel on an empty path list, resolve the
modules (resolution — `ResolveTerraformModules` — is an external
collaborator passed in as `resolve`), assemble the stack, and run the
cycle check, failing if it reports a cycle. -/
def createStackForTerragruntConfigPaths
    (resolve : List String → Except String (List TerraformModule))
    (path : String) (terragruntConfigPaths : List String) : Except StackError Stack :=
  if terragruntConfigPaths.isEmpty then
    .error .noTerraformModulesFound
  else
    match resolve terragruntConfigPaths with
    | .error msg => .error (.resolveModulesError msg)
    | .ok modules =>
      match CheckForCycles modules with
      | .error cyclePaths => .error (.dependencyCycle cyclePaths)
      | .ok _ => .ok ⟨path, modules⟩

/-! ### Basic lemmas about the sort and the loop -/

theorem sortByPath_perm (l : List TerraformModule) : (sortByPath l).Perm l :=
  List.perm_insertionSort pathLe l

theorem sortByPath_sorted (l : List TerraformModule) : (sortByPath l).Pairwise pathLe :=
  have _ht : IsTotal TerraformModule pathLe := ⟨fun a b => strLe_total a.path b.path⟩
  have _htr : IsTrans TerraformModule pathLe := ⟨fun _ _ _ => strLe_trans⟩
  List.sorted_insertionSort pathLe l

theorem mem_sortByPath {m : TerraformModule} {l : List TerraformModule} :
    m ∈ sortByPath l ↔ m ∈ l :=
  (sortByPath_perm l).mem_iff

theorem runGraphAux_stop {fuel : Nat} {graph : List runningModule}
    {groups : List (List TerraformModule)}
    (h : graph.isEmpty ∨ maxDepth ≤ groups.length) :
    runGraphAux fuel graph groups = some groups := by
  rw [runGraphAux.eq_def, if_pos h]

theorem runGraphAux_zero {graph : List runningModule} {groups : List (List TerraformModule)}
    (h : ¬(graph.isEmpty ∨ maxDepth ≤ groups.length)) :
    runGraphAux 0 graph groups = none := by
  rw [runGraphAux.eq_def, if_neg h]

theorem runGraphAux_succ {fuel : Nat} {graph : List runningModule}
    {groups : List (List TerraformModule)}
    (h : ¬(graph.isEmpty ∨ maxDepth ≤ groups.length)) :
    runGraphAux (fuel + 1) graph groups =
      runGraphAux fuel (runGraphStep graph).2
        (if (runGraphStep graph).1.isEmpty then groups else groups ++ [(runGraphStep graph).1]) := by
  rw [runGraphAux.eq_def, if_neg h]

/-! ### Shared concrete modules for examples and witnesses -/

/-- Module "a" with no dependencies. -/
def modA : TerraformModule := ⟨"a", [], false⟩

/-- Module "b" depending on "a". -/
def modB : TerraformModule := ⟨"b", ["a"], false⟩

/-- The two-module stack A, B→A used for the duality scenario. -/
def dualStack : Stack := ⟨"/dual", [modA, modB]⟩

/-- Module "x" of a two-module dependency cycle. -/
def cycleModuleX : TerraformModule := ⟨"x", ["y"], false⟩

/-- Module "y" of a two-module dependency cycle. -/
def cycleModuleY : TerraformModule := ⟨"y", ["x"], false⟩

/-- The forward running-module graph of the two-module cycle. -/
def cycleGraph : List runningModule := forwardNodes [cycleModuleX, cycleModuleY]

/-- A stack whose two modules depend on each other. -/
def cycleStack : Stack := ⟨"/cycle", [cycleModuleX, cycleModuleY]⟩

/-- C2: the grouping loop of getModuleRunGraph does not terminate on a
graph with an undetected cycle. On the two-module cycle the loop body is
the identity (no node is ready, so no group is formed and no node is
removed), hence the state never reaches the exit condition: the group
cap of 1000 counts captured groups, and no group is ever captured. The
claim that the loop always stops after at most 1000 iterations is
therefore false; the code's own comment says the cap exists "so that we
don't get stuck in an infinite loop". -/
theorem c2_grouping_loop_diverges_on_cycle :
    runGraphStep cycleGraph = ([], cycleGraph) ∧
    (∀ fuel, runGraphAux fuel cycleGraph [] = none) ∧
    getModuleRunGraph cycleStack CommandNameApply = .ok none := by
  refine ⟨rfl, ?_, rfl⟩
  intro fuel
  induction fuel with
  | zero => exact runGraphAux_zero (by decide)
  | succ f ih =>
    rw [runGraphAux_succ (by decide)]
    have hstep : runGraphStep cycleGraph = ([], cycleGraph) := rfl
    rw [hstep]
    exact ih

/-- C5: the scheduling direction is chosen by the command — destroy
builds the reverse graph, every other command the forward graph — and on
modules A (no deps), B→A the forward plan is [[A],[B]] while the destroy
plan is [[B],[A]]. -/
theorem c5_direction_chosen_by_command :
    (∀ stack : Stack, getModuleRunGraph stack CommandNameDestroy =
      match toRunningModules stack.modules .ReverseOrder with
      | .error e => .error e
      | .ok graph => .ok (runGraphAux (graph.length + 1) graph [])) ∧
    (∀ (stack : Stack) (cmd : String), cmd ≠ CommandNameDestroy →
      getModuleRunGraph stack cmd =
      match toRunningModules stack.modules .NormalOrder with
      | .error e => .error e
      | .ok graph => .ok (runGraphAux (graph.length + 1) graph [])) ∧
    getModuleRunGraph dualStack CommandNameApply = .ok (some [[modA], [modB]]) ∧
    getModuleRunGraph dualStack CommandNameDestroy = .ok (some [[modB], [modA]]) := by
  refine ⟨fun stack => rfl, ?_, rfl, rfl⟩
  intro stack cmd h
  have hb : (cmd == CommandNameDestroy) = false := beq_eq_false_iff_ne.mpr h
  unfold getModuleRunGraph
  rw [hb]
  rfl

/-- Witness for C5 at a concrete non-destroy command. -/
theorem c5_witness :
    CommandNamePlan ≠ CommandNameDestroy ∧
    getModuleRunGraph dualStack CommandNamePlan =
      match toRunningModules dualStack.modules .NormalOrder with
      | .error e => .error e
      | .ok graph => .ok (runGraphAux (graph.length + 1) graph []) :=
  ⟨by decide, c5_direction_chosen_by_command.2.1 dualStack CommandNamePlan (by decide)⟩

/-- C8: after a plan run, the remote-state hint is emitted for exactly
those modules whose captured error stream is non-empty and contains both
the "Error running plan:" signature and the remote-state resource
signature. -/
theorem c8_remote_state_hint_iff :
    ∀ (modules : List TerraformModule) (errorStreams : List String),
      summarizePlanAllErrors modules errorStreams =
        ((modules.zip errorStreams).filter fun me =>
          me.2.length != 0 && strContains me.2 planErrorSig &&
            strContains me.2 remoteStateSig).map fun me => me.1.path := by
  intro modules
  induction modules with
  | nil => intro streams; rfl
  | cons m ms ih =>
    intro streams
    cases streams with
    | nil => rfl
    | cons o os =>
      simp only [summarizePlanAllErrors, List.zip_cons_cons, List.filter_cons]
      by_cases h0 : o.length = 0
      · simp [h0, ih os]
      · by_cases h1 : strContains o planErrorSig = true
        · by_cases h2 : strContains o remoteStateSig = true
          · simp [h0, h1, h2, ih os]
          · simp [h0, h1, h2, ih os]
        · simp [h0, h1, ih os]

/-- C10: in Stack.Run's dispatch the IgnoreDependencyOrder option wins
over command semantics: whenever it is set the ignore-order variant is
selected, even for destroy. -/
theorem c10_ignore_order_precedence :
    ∀ terragruntOptions : TerragruntOptions,
      terragruntOptions.ignoreDependencyOrder = true →
      runDispatch terragruntOptions = .IgnoreOrder := by
  intro o h
  unfold runDispatch
  rw [h]
  rfl

/-- Witness for C10 with the destroy command. -/
theorem c10_witness :
    (⟨CommandNameDestroy, true, 4⟩ : TerragruntOptions).ignoreDependencyOrder = true ∧
    runDispatch ⟨CommandNameDestroy, true, 4⟩ = .IgnoreOrder :=
  ⟨rfl, c10_ignore_order_precedence ⟨CommandNameDestroy, true, 4⟩ rfl⟩

/-! ### C6: the JSON deploy-order report -/

theorem groupLabel_le_of_lt_nine :
    ∀ i < 9, ∀ j < 9, i < j → strLe (groupLabel i) (groupLabel j) = true := by decide

theorem labelGroups_mem {x : String × List String} :
    ∀ (gs : List (List TerraformModule)) (i : Nat), x ∈ labelGroups i gs →
      ∃ j, i ≤ j ∧ j < i + gs.length ∧ x.1 = groupLabel j := by
  intro gs
  induction gs with
  | nil => intro i h; simp [labelGroups] at h
  | cons g rest ih =>
    intro i h
    rw [labelGroups] at h
    rcases List.mem_cons.mp h with h | h
    · exact ⟨i, le_refl i, by simp, by rw [h]⟩
    · obtain ⟨j, h1, h2, h3⟩ := ih (i + 1) h
      exact ⟨j, by omega, by simp at h2 ⊢; omega, h3⟩

theorem labelGroups_pairwise :
    ∀ (gs : List (List TerraformModule)) (i : Nat), i + gs.length ≤ 9 →
      (labelGroups i gs).Pairwise keyLe := by
  intro gs
  induction gs with
  | nil => intro i _; exact List.Pairwise.nil
  | cons g rest ih =>
    intro i hle
    rw [labelGroups]
    refine List.Pairwise.cons ?_ (ih (i + 1) (by simp at hle ⊢; omega))
    intro x hx
    obtain ⟨j, h1, h2, h3⟩ := labelGroups_mem rest (i + 1) hx
    show strLe (groupLabel i) x.1 = true
    rw [h3]
    refine groupLabel_le_of_lt_nine i ?_ j ?_ ?_ <;> simp at hle <;> omega

theorem labelGroups_length : ∀ (gs : List (List TerraformModule)) (i : Nat),
    (labelGroups i gs).length = gs.length := by
  intro gs
  induction gs with
  | nil => intro i; rfl
  | cons g rest ih => intro i; rw [labelGroups]; simp [ih]

/-- C6 (amended): the structured report maps labels "Group i" to the
group's module paths and emits the pairs in lexicographic key order
(Go's JSON map marshalling); for plans of at most 9 groups that order
coincides with numeric execution order, so the report is emitted in
execution order. -/
theorem c6_json_order_at_most_nine_groups :
    ∀ (stack : Stack) (cmd : String) (plan : List (List TerraformModule)),
      getModuleRunGraph stack cmd = .ok (some plan) →
      plan.length ≤ 9 →
      JsonModuleDeployOrder stack cmd = .ok (some (labelGroups 0 plan)) := by
  intro stack cmd plan h hlen
  unfold JsonModuleDeployOrder
  rw [h]
  have hs : (labelGroups 0 plan).Pairwise keyLe := labelGroups_pairwise plan 0 (by omega)
  have ht : IsTotal (String × List String) keyLe := ⟨fun a b => strLe_total a.1 b.1⟩
  have htr : IsTrans (String × List String) keyLe := ⟨fun _ _ _ => strLe_trans⟩
  show Except.ok (some (sortByKey (labelGroups 0 plan))) = Except.ok (some (labelGroups 0 plan))
  rw [show sortByKey (labelGroups 0 plan) = labelGroups 0 plan from
    List.Sorted.insertionSort_eq hs]

/-- Witness for the amended C6 theorem on the two-group dual stack. -/
theorem c6_witness :
    getModuleRunGraph dualStack CommandNameApply = .ok (some [[modA], [modB]]) ∧
    ([[modA], [modB]] : List (List TerraformModule)).length ≤ 9 ∧
    JsonModuleDeployOrder dualStack CommandNameApply =
      .ok (some (labelGroups 0 [[modA], [modB]])) :=
  ⟨rfl, by decide,
    c6_json_order_at_most_nine_groups dualStack CommandNameApply [[modA], [modB]] rfl (by decide)⟩

/-- An 11-module linear chain a ← b ← … ← k, producing 11 groups. -/
def c6Stack : Stack :=
  ⟨"/json",
    [⟨"a", [], false⟩, ⟨"b", ["a"], false⟩, ⟨"c", ["b"], false⟩, ⟨"d", ["c"], false⟩,
      ⟨"e", ["d"], false⟩, ⟨"f", ["e"], false⟩, ⟨"g", ["f"], false⟩, ⟨"h", ["g"], false⟩,
      ⟨"i", ["h"], false⟩, ⟨"j", ["i"], false⟩, ⟨"k", ["j"], false⟩]⟩

/-- The run plan of the 11-module chain: 11 singleton groups. -/
def c6Plan : List (List TerraformModule) :=
  [[⟨"a", [], false⟩], [⟨"b", ["a"], false⟩], [⟨"c", ["b"], false⟩], [⟨"d", ["c"], false⟩],
    [⟨"e", ["d"], false⟩], [⟨"f", ["e"], false⟩], [⟨"g", ["f"], false⟩], [⟨"h", ["g"], false⟩],
    [⟨"i", ["h"], false⟩], [⟨"j", ["i"], false⟩], [⟨"k", ["j"], false⟩]]

/-- The emitted key/value sequence for the 11-group plan: "Group 10" and
"Group 11" sort lexicographically before "Group 2". -/
def c6Emitted : List (String × List String) :=
  [("Group 1", ["a"]), ("Group 10", ["j"]), ("Group 11", ["k"]), ("Group 2", ["b"]),
    ("Group 3", ["c"]), ("Group 4", ["d"]), ("Group 5", ["e"]), ("Group 6", ["f"]),
    ("Group 7", ["g"]), ("Group 8", ["h"]), ("Group 9", ["i"])]

/-- C6 counterexample: on a plan with 11 groups the emitted JSON object's
keys are NOT in numeric execution order (Group 10 and Group 11 precede
Group 2), and the emitted structure is the label-keyed map, not an
ordered array of group records. -/
theorem c6_counterexample :
    getModuleRunGraph c6Stack CommandNameApply = .ok (some c6Plan) ∧
    c6Plan.length = 11 ∧
    JsonModuleDeployOrder c6Stack CommandNameApply = .ok (some c6Emitted) ∧
    (labelGroups 0 c6Plan).map Prod.fst =
      ["Group 1", "Group 2", "Group 3", "Group 4", "Group 5", "Group 6", "Group 7",
        "Group 8", "Group 9", "Group 10", "Group 11"] ∧
    c6Emitted.map Prod.fst =
      ["Group 1", "Group 10", "Group 11", "Group 2", "Group 3", "Group 4", "Group 5",
        "Group 6", "Group 7", "Group 8", "Group 9"] ∧
    c6Emitted.map Prod.fst ≠ (labelGroups 0 c6Plan).map Prod.fst :=
  ⟨rfl, rfl, rfl, rfl, rfl, by decide⟩

/-! ### The 1001-module chain: the group cap silently truncates the plan -/

/-- The path of the i-th chain module: i+1 copies of 'a' (distinct
lengths give distinct paths). -/
def chainPath (i : Nat) : String := String.mk (List.replicate (i + 1) 'a')

/-- The i-th module of a linear chain: module i+1 depends on module i. -/
def chainModule : Nat → TerraformModule
  | 0 => ⟨chainPath 0, [], false⟩
  | k + 1 => ⟨chainPath (k + 1), [chainPath k], false⟩

/-- The first n chain modules. -/
def chainModules (n : Nat) : List TerraformModule := (List.range n).map chainModule

theorem chainPath_inj {i j : Nat} (h : chainPath i = chainPath j) : i = j := by
  have := congrArg (fun s => s.data.length) h
  simpa [chainPath] using this

theorem chainModule_path (i : Nat) : (chainModule i).path = chainPath i := by
  cases i <;> rfl

theorem chainModule_aaa (i : Nat) : (chainModule i).assumeAlreadyApplied = false := by
  cases i <;> rfl

theorem chainModule_inj {i j : Nat} (h : chainModule i = chainModule j) : i = j :=
  chainPath_inj (by rw [← chainModule_path, ← chainModule_path, h])

/-- Nodes i of the evolving chain graph that still carry their (single)
remaining dependency. -/
def chainTail (s len : Nat) : List runningModule :=
  (List.range' s len).map fun i => ⟨chainModule i, [chainPath (i - 1)]⟩

/-- The chain graph state once the first k modules have been peeled:
node k is dependency-free, nodes k+1 … n-1 still wait on their
predecessor. -/
def chainState (k n : Nat) : List runningModule :=
  ⟨chainModule k, []⟩ :: chainTail (k + 1) (n - k - 1)

theorem chainTail_mem {rm : runningModule} {s len : Nat} (h : rm ∈ chainTail s len) :
    ∃ i, s ≤ i ∧ i < s + len ∧ rm = ⟨chainModule i, [chainPath (i - 1)]⟩ := by
  obtain ⟨i, hi, hrm⟩ := List.mem_map.mp h
  obtain ⟨h1, h2⟩ := List.mem_range'_1.mp hi
  exact ⟨i, h1, h2, hrm.symm⟩

theorem chainTail_not_ready {rm : runningModule} {s len : Nat} (h : rm ∈ chainTail s len) :
    readyNode rm = false := by
  obtain ⟨i, _, _, hrm⟩ := chainTail_mem h
  rw [hrm]
  simp [readyNode, chainModule_aaa]

theorem forwardNodes_chainModules {n : Nat} (h : 0 < n) :
    forwardNodes (chainModules n) = chainState 0 n := by
  unfold forwardNodes chainModules chainState chainTail
  rw [List.map_map, List.range_eq_range']
  have h1 : n = (n - 1) + 1 := by omega
  rw [h1, List.range'_succ]
  rw [List.map_cons]
  have h2 : (0 + 1 : Nat) = 1 := rfl
  simp only [h2]
  have h3 : (n - 1) + 1 - 0 - 1 = n - 1 := by omega
  rw [h3]
  congr 1
  apply List.map_congr_left
  intro i hi
  obtain ⟨h4, _⟩ := List.mem_range'_1.mp hi
  obtain ⟨i', rfl⟩ : ∃ i', i = i' + 1 := ⟨i - 1, by omega⟩
  rfl

theorem dependencyPathsPresent_chainModules (n : Nat) :
    dependencyPathsPresent (chainModules n) = true := by
  rw [dependencyPathsPresent, List.all_eq_true]
  intro m hm
  obtain ⟨i, hi, rfl⟩ := List.mem_map.mp hm
  rw [List.mem_range] at hi
  rw [List.all_eq_true]
  intro d hd
  match i, hd with
  | 0, hd => simp [chainModule] at hd
  | k + 1, hd =>
    have hdk : d = chainPath k := by
      simpa [chainModule] using hd
    rw [List.any_eq_true]
    refine ⟨chainModule k, List.mem_map.mpr ⟨k, List.mem_range.mpr (by omega), rfl⟩, ?_⟩
    rw [hdk, chainModule_path]
    exact beq_self_eq_true (chainPath k)

theorem runGraphStep_chainState {k n : Nat} (h : k < n) :
    runGraphStep (chainState k n) =
      ([chainModule k], if k + 1 < n then chainState (k + 1) n else []) := by
  have htail : ∀ rm ∈ chainTail (k + 1) (n - k - 1), readyNode rm = false :=
    fun rm hrm => chainTail_not_ready hrm
  have hnode : readyNode (⟨chainModule k, []⟩ : runningModule) = true := by
    simp [readyNode]
  have hfready : List.filter readyNode (chainState k n) = [⟨chainModule k, []⟩] := by
    unfold chainState
    rw [List.filter_cons_of_pos hnode]
    rw [List.filter_eq_nil_iff.mpr (fun rm hrm => by rw [htail rm hrm]; simp)]
  have hremove : graphPaths (List.filter readyNode (chainState k n)) = [chainPath k] := by
    rw [hfready]
    simp [graphPaths, chainModule_path]
  have hdeploy : List.filter
      (fun rm => !rm.module.assumeAlreadyApplied && rm.dependencies.isEmpty)
      (chainState k n) = [⟨chainModule k, []⟩] := by
    unfold chainState
    rw [List.filter_cons_of_pos (by simp [chainModule_aaa])]
    rw [List.filter_eq_nil_iff.mpr (fun rm hrm => by
      obtain ⟨i, _, _, hh⟩ := chainTail_mem hrm
      rw [hh]
      simp [chainModule_aaa])]
  have hnext : List.filter (fun rm => !readyNode rm) (chainState k n) =
      chainTail (k + 1) (n - k - 1) := by
    unfold chainState
    rw [List.filter_cons_of_neg (by simp [hnode])]
    exact List.filter_eq_self.mpr (fun rm hrm => by rw [htail rm hrm]; rfl)
  unfold runGraphStep
  simp only []
  rw [Prod.mk.injEq]
  refine ⟨?_, ?_⟩
  · rw [hdeploy]
    rfl
  · rw [hnext, hremove]
    by_cases hlt : k + 1 < n
    · rw [if_pos hlt]
      unfold chainState chainTail
      have h1 : n - k - 1 = (n - k - 2) + 1 := by omega
      rw [h1, List.range'_succ, List.map_cons, List.map_cons, List.map_map]
      have h2 : n - (k + 1) - 1 = n - k - 2 := by omega
      rw [h2]
      refine congrArg₂ List.cons ?_ ?_
      · show (⟨chainModule (k + 1),
          List.filter (fun d => !([chainPath k].contains d)) [chainPath (k + 1 - 1)]⟩ :
            runningModule) = ⟨chainModule (k + 1), []⟩
        have h3 : k + 1 - 1 = k := rfl
        rw [h3]
        simp [List.contains_cons]
      · apply List.map_congr_left
        intro i hi
        obtain ⟨hi1, _⟩ := List.mem_range'_1.mp hi
        have hne : chainPath (i - 1) ≠ chainPath k := fun hc => by
          have := chainPath_inj hc
          omega
        show (⟨chainModule i,
          List.filter (fun d => !([chainPath k].contains d)) [chainPath (i - 1)]⟩ :
            runningModule) = ⟨chainModule i, [chainPath (i - 1)]⟩
        simp [List.contains_cons, hne]
    · rw [if_neg hlt]
      have h0 : n - k - 1 = 0 := by omega
      rw [h0]
      rfl

theorem runGraphAux_succ' {fuel : Nat} {graph : List runningModule}
    {groups : List (List TerraformModule)} {grp : List TerraformModule}
    {next : List runningModule}
    (h : ¬(graph.isEmpty ∨ maxDepth ≤ groups.length))
    (hstep : runGraphStep graph = (grp, next)) :
    runGraphAux (fuel + 1) graph groups =
      runGraphAux fuel next (if grp.isEmpty then groups else groups ++ [grp]) := by
  rw [runGraphAux_succ h, hstep]

theorem runGraphAux_chainState :
    ∀ (fuel k n : Nat) (groups : List (List TerraformModule)),
      k < n → n - k ≤ fuel →
      runGraphAux fuel (chainState k n) groups =
        some (groups ++ (List.range' k (min (n - k) (maxDepth - groups.length))).map
          fun i => [chainModule i]) := by
  intro fuel
  induction fuel with
  | zero =>
    intro k n groups hk hf
    omega
  | succ f ih =>
    intro k n groups hk hf
    by_cases hcap : maxDepth ≤ groups.length
    · rw [runGraphAux_stop (Or.inr hcap)]
      have h0 : maxDepth - groups.length = 0 := by omega
      rw [h0]
      simp
    · have hguard : ¬((chainState k n).isEmpty = true ∨ maxDepth ≤ groups.length) := by
        rintro (he | hc)
        · rw [chainState] at he
          simp at he
        · exact hcap hc
      rw [runGraphAux_succ' hguard (runGraphStep_chainState hk)]
      simp only [List.isEmpty_cons, Bool.false_eq_true, if_false]
      by_cases hlt : k + 1 < n
      · rw [if_pos hlt]
        rw [ih (k + 1) n (groups ++ [[chainModule k]]) hlt (by omega)]
        have hlen : (groups ++ [[chainModule k]]).length = groups.length + 1 := by simp
        rw [hlen]
        have hmin : min (n - k) (maxDepth - groups.length) =
            min (n - (k + 1)) (maxDepth - (groups.length + 1)) + 1 := by
          have hm : maxDepth = 1000 := rfl
          omega
        rw [hmin, List.range'_succ, List.map_cons]
        simp
      · rw [if_neg hlt]
        rw [runGraphAux_stop (Or.inl (rfl : ([] : List runningModule).isEmpty = true))]
        have h1 : n - k = 1 := by omega
        rw [h1]
        have hm : maxDepth = 1000 := rfl
        have hmin : min 1 (maxDepth - groups.length) = 1 := by omega
        rw [hmin]
        rfl

theorem chainState_length {k n : Nat} (h : k < n) : (chainState k n).length = n - k := by
  unfold chainState chainTail
  simp [List.length_range']
  omega

/-- The 1001-module linear chain stack. -/
def chainStack : Stack := ⟨"/chain", chainModules 1001⟩

/-- The plan actually produced for the 1001-module chain: only the first
1000 groups. -/
def truncatedChainPlan : List (List TerraformModule) :=
  (List.range' 0 1000).map fun i => [chainModule i]

theorem getModuleRunGraph_eq_normal (stack : Stack) :
    getModuleRunGraph stack CommandNameApply =
      match toRunningModules stack.modules .NormalOrder with
      | .error e => .error e
      | .ok graph => .ok (runGraphAux (graph.length + 1) graph []) := rfl

theorem toRunningModules_chain : toRunningModules chainStack.modules .NormalOrder =
    .ok (forwardNodes (chainModules 1001)) := by
  rw [show chainStack.modules = chainModules 1001 from rfl]
  unfold toRunningModules
  rw [dependencyPathsPresent_chainModules]
  rfl

theorem getModuleRunGraph_ok {stack : Stack} {cmd : String} {g : List runningModule}
    (hcmd : (cmd == CommandNameDestroy) = false)
    (h : toRunningModules stack.modules .NormalOrder = .ok g) :
    getModuleRunGraph stack cmd = .ok (runGraphAux (g.length + 1) g []) := by
  unfold getModuleRunGraph
  rw [hcmd]
  rw [if_neg (by simp)]
  rw [h]

theorem getModuleRunGraph_chainStack :
    getModuleRunGraph chainStack CommandNameApply = .ok (some truncatedChainPlan) := by
  rw [getModuleRunGraph_ok (rfl : (CommandNameApply == CommandNameDestroy) = false)
    toRunningModules_chain]
  rw [forwardNodes_chainModules (by omega)]
  rw [runGraphAux_chainState ((chainState 0 1001).length + 1) 0 1001 [] (by omega)
    (by rw [chainState_length (show (0 : Nat) < 1001 by omega)]; omega)]
  have hmin : min (1001 - 0) (maxDepth - ([] : List (List TerraformModule)).length) = 1000 := by
    decide
  rw [hmin]
  rfl

theorem chainModule_1000_mem : chainModule 1000 ∈ chainStack.modules :=
  List.mem_map.mpr ⟨1000, List.mem_range.mpr (by omega), rfl⟩

theorem chainModule_1000_dropped :
    ∀ group ∈ truncatedChainPlan, chainModule 1000 ∉ group := by
  intro group hg hmem
  obtain ⟨i, hi, rfl⟩ := List.mem_map.mp hg
  obtain ⟨hi1, hi2⟩ := List.mem_range'_1.mp hi
  have h := List.mem_singleton.mp hmem
  have := chainModule_inj h
  omega

/-- Acyclicity of a built dependency graph, witnessed by a rank function
that strictly decreases along every remaining-dependency edge. -/
def AcyclicGraph (g : List runningModule) : Prop :=
  ∃ rank : String → Nat, ∀ rm ∈ g, ∀ d ∈ rm.dependencies, rank d < rank rm.module.path

theorem acyclic_forward_chain (n : Nat) : AcyclicGraph (forwardNodes (chainModules n)) := by
  refine ⟨String.length, ?_⟩
  intro rm hrm d hd
  obtain ⟨m, hm, rfl⟩ := List.mem_map.mp hrm
  obtain ⟨i, hi, rfl⟩ := List.mem_map.mp hm
  match i, hd with
  | 0, hd => simp [chainModule] at hd
  | k + 1, hd =>
    have hdk : d = chainPath k := by simpa [chainModule] using hd
    rw [hdk]
    show (chainPath k).length < (chainModule (k + 1)).path.length
    rw [chainModule_path]
    simp [chainPath, String.length]

/-- C9: on the acyclic 1001-module chain the grouping loop stops at the
1000-group cap and getModuleRunGraph returns the first 1000 groups with
a nil error; the remaining module is silently omitted from the plan. -/
theorem c9_cap_truncates_with_nil_error :
    getModuleRunGraph chainStack CommandNameApply = .ok (some truncatedChainPlan) ∧
    truncatedChainPlan.length = 1000 ∧
    chainStack.modules.length = 1001 ∧
    chainModule 1000 ∈ chainStack.modules ∧
    ∀ group ∈ truncatedChainPlan, chainModule 1000 ∉ group :=
  ⟨getModuleRunGraph_chainStack,
    by simp [truncatedChainPlan, List.length_range'],
    by simp [chainStack, chainModules],
    chainModule_1000_mem,
    chainModule_1000_dropped⟩

/-- C1 counterexample: the 1001-module chain is an acyclic, fully
resolved module set, yet the produced RunPlan does not contain the
non-assumeAlreadyApplied module 1000 in any group, so the plan is not a
partition of the module set. -/
theorem c1_counterexample :
    AcyclicGraph (forwardNodes chainStack.modules) ∧
    dependencyPathsPresent chainStack.modules = true ∧
    getModuleRunGraph chainStack CommandNameApply = .ok (some truncatedChainPlan) ∧
    chainModule 1000 ∈ chainStack.modules ∧
    (chainModule 1000).assumeAlreadyApplied = false ∧
    ∀ group ∈ truncatedChainPlan, chainModule 1000 ∉ group :=
  ⟨acyclic_forward_chain 1001,
    dependencyPathsPresent_chainModules 1001,
    getModuleRunGraph_chainStack,
    chainModule_1000_mem,
    chainModule_aaa 1000,
    chainModule_1000_dropped⟩

/-! ### C3: assumeAlreadyApplied modules are never scheduled -/

theorem runGraphStep_group_no_aaa {g : List runningModule} {m : TerraformModule}
    (h : m ∈ (runGraphStep g).1) : m.assumeAlreadyApplied = false := by
  unfold runGraphStep at h
  simp only [] at h
  rw [mem_sortByPath] at h
  obtain ⟨rm, hrm, rfl⟩ := List.mem_map.mp h
  have := List.of_mem_filter hrm
  simp only [Bool.and_eq_true, Bool.not_eq_true'] at this
  exact this.1

theorem runGraphAux_no_aaa :
    ∀ (fuel : Nat) (g : List runningModule) (groups plan : List (List TerraformModule)),
      (∀ gr ∈ groups, ∀ m ∈ gr, m.assumeAlreadyApplied = false) →
      runGraphAux fuel g groups = some plan →
      ∀ gr ∈ plan, ∀ m ∈ gr, m.assumeAlreadyApplied = false := by
  intro fuel
  induction fuel with
  | zero =>
    intro g groups plan hpre h
    rw [runGraphAux.eq_def] at h
    split at h
    · cases h
      exact hpre
    · cases h
  | succ f ih =>
    intro g groups plan hpre h
    rw [runGraphAux.eq_def] at h
    split at h
    · cases h
      exact hpre
    · refine ih (runGraphStep g).2 _ plan ?_ h
      intro gr hgr
      by_cases hemp : (runGraphStep g).1.isEmpty
      · rw [if_pos hemp] at hgr
        exact hpre gr hgr
      · rw [if_neg hemp] at hgr
        rcases List.mem_append.mp hgr with hgr | hgr
        · exact hpre gr hgr
        · intro m hm
          rw [List.mem_singleton.mp hgr] at hm
          exact runGraphStep_group_no_aaa hm

/-- Module "a", assumed already applied. -/
def appliedA : TerraformModule := ⟨"a", [], true⟩

/-- Module "b", whose only prerequisite is the already-applied "a". -/
def depB : TerraformModule := ⟨"b", ["a"], false⟩

/-- Independent module "c" with no dependencies. -/
def indC : TerraformModule := ⟨"c", [], false⟩

/-- The two-module scenario: one applied module, one dependent. -/
def aaaStack : Stack := ⟨"/aaa", [appliedA, depB]⟩

/-- The three-module stack refuting the universally quantified
first-group clause of C3. -/
def aaaTripleStack : Stack := ⟨"/aaa3", [appliedA, depB, indC]⟩

/-- C3 (amended): assumeAlreadyApplied modules never appear in any group
of any computed plan (universally), and in the two-module scenario
{A applied, B→A} — where nothing else can be scheduled first — the
dependent module appears in the first group. -/
theorem c3_applied_never_scheduled :
    (∀ (stack : Stack) (cmd : String) (plan : List (List TerraformModule)),
      getModuleRunGraph stack cmd = .ok (some plan) →
      ∀ gr ∈ plan, ∀ m ∈ gr, m.assumeAlreadyApplied = false) ∧
    getModuleRunGraph aaaStack CommandNameApply = .ok (some [[depB]]) := by
  refine ⟨?_, rfl⟩
  intro stack cmd plan h
  unfold getModuleRunGraph at h
  split at h
  · cases h
  · rename_i g hg
    rw [Except.ok.injEq] at h
    exact runGraphAux_no_aaa (g.length + 1) g [] plan
      (fun gr hgr => absurd hgr (List.not_mem_nil gr)) h

/-- Witness for C3 on the two-module scenario. -/
theorem c3_witness :
    getModuleRunGraph aaaStack CommandNameApply = .ok (some [[depB]]) ∧
    ∀ gr ∈ [[depB]], ∀ m ∈ gr, m.assumeAlreadyApplied = false :=
  ⟨rfl, c3_applied_never_scheduled.1 aaaStack CommandNameApply [[depB]] rfl⟩

/-- C3 counterexample: with an additional independent module "c", the
module "b" whose only prerequisite is the applied module "a" lands in
the second group, not the first, because the first iteration schedules
"c" into a non-empty first group. -/
theorem c3_counterexample :
    getModuleRunGraph aaaTripleStack CommandNameApply = .ok (some [[indC], [depB]]) ∧
    depB.dependencies = [appliedA.path] ∧
    appliedA.assumeAlreadyApplied = true ∧
    depB.assumeAlreadyApplied = false ∧
    ([[indC], [depB]] : List (List TerraformModule)).head? = some [indC] ∧
    depB ∉ [indC] :=
  ⟨rfl, rfl, rfl, rfl, rfl, by decide⟩

/-! ### C4: determinism and order-independence of the scheduler -/

theorem contains_eq_of_perm {l1 l2 : List String} (h : l1.Perm l2) (a : String) :
    l1.contains a = l2.contains a := by
  apply Bool.coe_iff_coe.mp
  rw [show l1.contains a = l1.elem a from rfl, show l2.contains a = l2.elem a from rfl]
  rw [List.elem_iff, List.elem_iff]
  exact h.mem_iff

theorem sortByPath_eq_of_perm {l1 l2 : List TerraformModule} (hp : l1.Perm l2)
    (hnd : (l1.map fun m => m.path).Nodup) : sortByPath l1 = sortByPath l2 := by
  have hperm : (sortByPath l1).Perm (sortByPath l2) :=
    (sortByPath_perm l1).trans (hp.trans (sortByPath_perm l2).symm)
  have hnd1 : ((sortByPath l1).map fun m => m.path).Nodup :=
    (((sortByPath_perm l1).map _).nodup_iff).mpr hnd
  have hnd2 : ((sortByPath l2).map fun m => m.path).Nodup :=
    ((hperm.map _).nodup_iff).mp hnd1
  have hne1 : (sortByPath l1).Pairwise fun a b => a.path ≠ b.path := by
    rw [List.Nodup, List.pairwise_map] at hnd1
    exact hnd1
  have hne2 : (sortByPath l2).Pairwise fun a b => a.path ≠ b.path := by
    rw [List.Nodup, List.pairwise_map] at hnd2
    exact hnd2
  have hr1 := (sortByPath_sorted l1).and hne1
  have hr2 := (sortByPath_sorted l2).and hne2
  exact @List.eq_of_perm_of_sorted TerraformModule
    (fun a b => pathLe a b ∧ a.path ≠ b.path)
    ⟨fun a b h1 h2 => absurd (strLe_antisymm h1.1 h2.1) h1.2⟩
    _ _ hperm hr1 hr2

theorem graphPaths_filter_sublist (g : List runningModule) (p : runningModule → Bool) :
    (graphPaths (g.filter p)).Sublist (graphPaths g) :=
  List.Sublist.map _ (List.filter_sublist g)

theorem runGraphStep_next_paths (g : List runningModule) :
    graphPaths (runGraphStep g).2 = graphPaths (g.filter fun rm => !readyNode rm) := by
  unfold runGraphStep graphPaths
  simp only [List.map_map]
  rfl

theorem runGraphStep_nodup {g : List runningModule} (hnd : (graphPaths g).Nodup) :
    (graphPaths (runGraphStep g).2).Nodup := by
  rw [runGraphStep_next_paths]
  exact List.Nodup.sublist (graphPaths_filter_sublist g _) hnd

theorem runGraphStep_perm {g1 g2 : List runningModule} (hp : g1.Perm g2)
    (hnd : (graphPaths g1).Nodup) :
    (runGraphStep g1).1 = (runGraphStep g2).1 ∧
      (runGraphStep g1).2.Perm (runGraphStep g2).2 := by
  have hremove : ∀ d, (graphPaths (g1.filter readyNode)).contains d =
      (graphPaths (g2.filter readyNode)).contains d :=
    fun d => contains_eq_of_perm ((hp.filter readyNode).map _) d
  constructor
  · unfold runGraphStep
    simp only []
    apply sortByPath_eq_of_perm
    · exact (hp.filter _).map _
    · rw [List.map_map]
      refine List.Nodup.sublist ?_ hnd
      exact List.Sublist.map _ (List.filter_sublist g1)
  · unfold runGraphStep
    simp only []
    have hfun : (fun rm : runningModule =>
        (⟨rm.module, rm.dependencies.filter fun d =>
          !(graphPaths (g1.filter readyNode)).contains d⟩ : runningModule)) =
        (fun rm : runningModule =>
        (⟨rm.module, rm.dependencies.filter fun d =>
          !(graphPaths (g2.filter readyNode)).contains d⟩ : runningModule)) := by
      funext rm
      congr 1
      apply List.filter_congr
      intro d _
      rw [hremove d]
    rw [hfun]
    exact (hp.filter _).map _

theorem runGraphAux_perm :
    ∀ (fuel : Nat) (g1 g2 : List runningModule) (groups : List (List TerraformModule)),
      g1.Perm g2 → (graphPaths g1).Nodup →
      runGraphAux fuel g1 groups = runGraphAux fuel g2 groups := by
  intro fuel
  induction fuel with
  | zero =>
    intro g1 g2 groups hp hnd
    rw [runGraphAux.eq_def, runGraphAux.eq_def, hp.isEmpty_eq]
  | succ f ih =>
    intro g1 g2 groups hp hnd
    by_cases hguard : (g1.isEmpty = true ∨ maxDepth ≤ groups.length)
    · have hguard2 : (g2.isEmpty = true ∨ maxDepth ≤ groups.length) := by
        rcases hguard with h | h
        · left; rw [← hp.isEmpty_eq]; exact h
        · right; exact h
      rw [runGraphAux_stop hguard, runGraphAux_stop hguard2]
    · have hguard2 : ¬(g2.isEmpty = true ∨ maxDepth ≤ groups.length) := by
        intro hc
        apply hguard
        rcases hc with h | h
        · left; rw [hp.isEmpty_eq]; exact h
        · right; exact h
      obtain ⟨hgrp, hnext⟩ := runGraphStep_perm hp hnd
      rw [runGraphAux_succ hguard, runGraphAux_succ hguard2, hgrp]
      exact ih _ _ _ hnext (runGraphStep_nodup hnd)

theorem runGraphStep_group_sorted (g : List runningModule) :
    (runGraphStep g).1.Pairwise pathLe := by
  unfold runGraphStep
  simp only []
  exact sortByPath_sorted _

theorem runGraphAux_groups_sorted :
    ∀ (fuel : Nat) (g : List runningModule) (groups plan : List (List TerraformModule)),
      (∀ gr ∈ groups, gr.Pairwise pathLe) →
      runGraphAux fuel g groups = some plan →
      ∀ gr ∈ plan, gr.Pairwise pathLe := by
  intro fuel
  induction fuel with
  | zero =>
    intro g groups plan hpre h
    rw [runGraphAux.eq_def] at h
    split at h
    · cases h
      exact hpre
    · cases h
  | succ f ih =>
    intro g groups plan hpre h
    rw [runGraphAux.eq_def] at h
    split at h
    · cases h
      exact hpre
    · refine ih (runGraphStep g).2 _ plan ?_ h
      intro gr hgr
      by_cases hemp : (runGraphStep g).1.isEmpty
      · rw [if_pos hemp] at hgr
        exact hpre gr hgr
      · rw [if_neg hemp] at hgr
        rcases List.mem_append.mp hgr with hgr | hgr
        · exact hpre gr hgr
        · rw [List.mem_singleton.mp hgr]
          exact runGraphStep_group_sorted g

/-- C4: computing the plan is deterministic. The function itself is
pure (computing it twice gives the same value); the grouping loop is
invariant under any permutation of the node list — the model of the
unspecified Go map iteration order — provided node paths are distinct
(the stack invariant); and every emitted group is sorted by module path
in ascending byte-wise order. -/
theorem c4_determinism :
    (∀ (stack : Stack) (cmd : String),
      getModuleRunGraph stack cmd = getModuleRunGraph stack cmd) ∧
    (∀ (fuel : Nat) (g1 g2 : List runningModule) (groups : List (List TerraformModule)),
      g1.Perm g2 → (graphPaths g1).Nodup →
      runGraphAux fuel g1 groups = runGraphAux fuel g2 groups) ∧
    (∀ (stack : Stack) (cmd : String) (plan : List (List TerraformModule)),
      getModuleRunGraph stack cmd = .ok (some plan) →
      ∀ gr ∈ plan, gr.Pairwise pathLe) := by
  refine ⟨fun _ _ => rfl, runGraphAux_perm, ?_⟩
  intro stack cmd plan h
  unfold getModuleRunGraph at h
  split at h
  · cases h
  · rename_i g hg
    rw [Except.ok.injEq] at h
    exact runGraphAux_groups_sorted (g.length + 1) g [] plan
      (fun gr hgr => absurd hgr (List.not_mem_nil gr)) h

/-- Witness for C4: two orderings of the same two-node graph produce the
same result, and the concrete plan for the dual stack has sorted groups. -/
theorem c4_witness :
    ((forwardNodes [modA, modB]).Perm [⟨modB, ["a"]⟩, ⟨modA, []⟩] ∧
      (graphPaths (forwardNodes [modA, modB])).Nodup ∧
      runGraphAux 3 (forwardNodes [modA, modB]) [] =
        runGraphAux 3 [⟨modB, ["a"]⟩, ⟨modA, []⟩] []) ∧
    (getModuleRunGraph dualStack CommandNameApply = .ok (some [[modA], [modB]]) ∧
      ∀ gr ∈ [[modA], [modB]], gr.Pairwise pathLe) :=
  ⟨⟨by decide, by decide,
    c4_determinism.2.1 3 (forwardNodes [modA, modB]) [⟨modB, ["a"]⟩, ⟨modA, []⟩] []
      (by decide) (by decide)⟩,
  ⟨rfl, c4_determinism.2.2 dualStack CommandNameApply [[modA], [modB]] rfl⟩⟩

/-! ### C7: stack construction guards -/

/-- C7: construction returns the NoModulesFound sentinel on an empty
config-path list; when module resolution succeeds but the cycle check
reports a cycle, an error is returned instead of a Stack; and every
successfully constructed Stack passed the cycle check, i.e. its declared
dependency relation contains no cycle (hasCycle is false). -/
theorem c7_construction_guards :
    (∀ (resolve : List String → Except String (List TerraformModule)) (path : String),
      createStackForTerragruntConfigPaths resolve path [] = .error .noTerraformModulesFound) ∧
    (∀ (resolve : List String → Except String (List TerraformModule)) (path : String)
        (paths : List String) (modules : List TerraformModule),
      paths ≠ [] → resolve paths = .ok modules → hasCycle modules = true →
      ∃ cyclePaths, createStackForTerragruntConfigPaths resolve path paths =
        .error (.dependencyCycle cyclePaths)) ∧
    (∀ (resolve : List String → Except String (List TerraformModule)) (path : String)
        (paths : List String) (stack : Stack),
      createStackForTerragruntConfigPaths resolve path paths = .ok stack →
      hasCycle stack.modules = false ∧ CheckForCycles stack.modules = .ok () ∧
        resolve paths = .ok stack.modules ∧ stack.path = path) := by
  refine ⟨fun resolve path => rfl, ?_, ?_⟩
  · intro resolve path paths modules hne hres hcyc
    have hcc : CheckForCycles modules = .error ((modules.filter fun m =>
        (List.range modules.length).any fun k =>
          (reachIter modules (k + 1) [m.path]).contains m.path).map fun m => m.path) := by
      unfold CheckForCycles
      rw [if_pos hcyc]
    refine ⟨(modules.filter fun m =>
      (List.range modules.length).any fun k =>
        (reachIter modules (k + 1) [m.path]).contains m.path).map fun m => m.path, ?_⟩
    unfold createStackForTerragruntConfigPaths
    have hemp : paths.isEmpty = false := by
      cases paths with
      | nil => exact absurd rfl hne
      | cons a as => rfl
    rw [hemp]
    rw [if_neg (by simp)]
    split
    · rename_i msg hmsg
      rw [hres] at hmsg
      cases hmsg
    · rename_i mods hmods
      rw [hres] at hmods
      rw [Except.ok.injEq] at hmods
      subst hmods
      split
      · rename_i cyc hcycm
        rw [hcc] at hcycm
        rw [Except.error.injEq] at hcycm
        subst hcycm
        rfl
      · rename_i u hok
        rw [hcc] at hok
        cases hok
  · intro resolve path paths stack h
    unfold createStackForTerragruntConfigPaths at h
    split at h
    · cases h
    · split at h
      · cases h
      · rename_i modules hres
        split at h
        · cases h
        · rename_i u hcc
          rw [Except.ok.injEq] at h
          subst h
          have hfalse : hasCycle modules = false := by
            unfold CheckForCycles at hcc
            split at hcc
            · cases hcc
            · rename_i hcond
              simpa using hcond
          refine ⟨hfalse, ?_, hres, rfl⟩
          unfold CheckForCycles
          rw [hfalse]
          rfl

/-- Witness for C7: a cyclic resolution is rejected, an acyclic one
yields a stack that passed the cycle check. -/
theorem c7_witness :
    ((["p"] : List String) ≠ [] ∧
      (fun (_ : List String) =>
        (.ok [cycleModuleX, cycleModuleY] : Except String (List TerraformModule))) ["p"] =
        .ok [cycleModuleX, cycleModuleY] ∧
      hasCycle [cycleModuleX, cycleModuleY] = true ∧
      ∃ cyclePaths, createStackForTerragruntConfigPaths
        (fun _ => .ok [cycleModuleX, cycleModuleY]) "/w" ["p"] =
          .error (.dependencyCycle cyclePaths)) ∧
    (createStackForTerragruntConfigPaths (fun _ => .ok [modA, modB]) "/w" ["p"] =
        .ok ⟨"/w", [modA, modB]⟩ ∧
      hasCycle (Stack.mk "/w" [modA, modB]).modules = false) :=
  ⟨⟨by decide, rfl, by decide,
    c7_construction_guards.2.1 (fun _ => .ok [cycleModuleX, cycleModuleY]) "/w" ["p"]
      [cycleModuleX, cycleModuleY] (by decide) rfl (by decide)⟩,
  ⟨rfl, (c7_construction_guards.2.2 (fun _ => .ok [modA, modB]) "/w" ["p"]
      ⟨"/w", [modA, modB]⟩ rfl).1⟩⟩

/-! ### C1: correctness of the scheduler on bounded acyclic graphs -/

theorem contains_iff {l : List String} {a : String} : l.contains a = true ↔ a ∈ l := by
  rw [show l.contains a = l.elem a from rfl]
  exact List.elem_iff

theorem subperm_nodup {α : Type} {l1 l2 : List α} (h : l1.Subperm l2) (hnd : l2.Nodup) :
    l1.Nodup := by
  obtain ⟨l, hp, hs⟩ := h
  exact (hp.nodup_iff).mp (List.Nodup.sublist hs hnd)

theorem filter_append_filter_subperm {α : Type} (p q : α → Bool) :
    ∀ l : List α, (∀ x ∈ l, ¬(p x = true ∧ q x = true)) →
      (l.filter p ++ l.filter q).Subperm l := by
  intro l
  induction l with
  | nil => intro _; simp
  | cons a rest ih =>
    intro hx
    have hrest : ∀ x ∈ rest, ¬(p x = true ∧ q x = true) :=
      fun x hmem => hx x (List.mem_cons_of_mem a hmem)
    by_cases hp : p a = true
    · have hq : q a = false := by
        rcases Bool.eq_false_or_eq_true (q a) with h | h
        · exact absurd ⟨hp, h⟩ (hx a (List.mem_cons_self a rest))
        · exact h
      rw [List.filter_cons_of_pos hp, List.filter_cons_of_neg (by simp [hq])]
      rw [List.cons_append]
      exact (List.subperm_cons a).mpr (ih hrest)
    · rw [List.filter_cons_of_neg hp]
      by_cases hq : q a = true
      · rw [List.filter_cons_of_pos hq]
        refine List.Subperm.trans (List.Perm.subperm List.perm_middle) ?_
        exact (List.subperm_cons a).mpr (ih hrest)
      · rw [List.filter_cons_of_neg hq]
        exact List.Subperm.trans (ih hrest) (List.sublist_cons_self a rest).subperm
    
theorem nodup_append_of_subperm {α : Type} {A D E : List α}
    (hnd : (A ++ D).Nodup) (hsub : E.Subperm D) : (A ++ E).Nodup := by
  rw [List.nodup_append] at hnd ⊢
  refine ⟨hnd.1, subperm_nodup hsub hnd.2.1, ?_⟩
  intro a ha hae
  exact hnd.2.2 ha (hsub.subset hae)

theorem mem_flatten_getElem {m : TerraformModule} {L : List (List TerraformModule)} :
    m ∈ L.flatten ↔ ∃ i, ∃ (hi : i < L.length), m ∈ L[i] := by
  rw [List.mem_flatten]
  constructor
  · rintro ⟨l, hl, hm⟩
    obtain ⟨i, hi, rfl⟩ := List.mem_iff_getElem.mp hl
    exact ⟨i, hi, hm⟩
  · rintro ⟨i, hi, hm⟩
    exact ⟨L[i], List.getElem_mem hi, hm⟩

theorem unique_group_of_flatten_nodup {plan : List (List TerraformModule)}
    (hnd : (plan.flatten.map fun m => m.path).Nodup) :
    ∀ (i j : Nat) (hi : i < plan.length) (hj : j < plan.length) (m : TerraformModule),
      m ∈ plan[i] → m ∈ plan[j] → i = j := by
  rw [List.map_flatten] at hnd
  obtain ⟨-, hdisj⟩ := List.nodup_flatten.mp hnd
  rw [List.pairwise_map] at hdisj
  rw [List.pairwise_iff_getElem] at hdisj
  intro i j hi hj m hmi hmj
  rcases Nat.lt_trichotomy i j with h | h | h
  · exact absurd (List.mem_map_of_mem (fun m => m.path) hmj)
      (hdisj i j hi hj h (List.mem_map_of_mem _ hmi))
  · exact h
  · exact absurd (List.mem_map_of_mem (fun m => m.path) hmi)
      (hdisj j i hj hi h (List.mem_map_of_mem _ hmj))

theorem length_le_flatten_length {α : Type} :
    ∀ (L : List (List α)), (∀ l ∈ L, l ≠ []) → L.length ≤ L.flatten.length := by
  intro L
  induction L with
  | nil => intro _; simp
  | cons l rest ih =>
    intro h
    rw [List.flatten_cons, List.length_append, List.length_cons]
    have h1 : 1 ≤ l.length := by
      have := h l (List.mem_cons_self l rest)
      cases l with
      | nil => exact absurd rfl this
      | cons a as => simp
    have h2 := ih fun x hx => h x (List.mem_cons_of_mem l hx)
    omega

/-- The filter selecting nodes deployed in the current iteration. -/
def deployP (rm : runningModule) : Bool :=
  !rm.module.assumeAlreadyApplied && rm.dependencies.isEmpty

theorem runGraphStep_eq (g : List runningModule) :
    runGraphStep g =
      (sortByPath ((g.filter deployP).map fun rm => rm.module),
        (g.filter fun rm => !readyNode rm).map fun rm =>
          ⟨rm.module, rm.dependencies.filter fun d =>
            !(graphPaths (g.filter readyNode)).contains d⟩) := rfl

/-- The loop invariant of the grouping loop, relative to the initial
graph `g0`: all paths (scheduled and remaining) are distinct; every
remaining node stems from `g0` and its remaining dependencies are
exactly its original dependencies whose target is still in the graph;
every scheduled module stems from `g0`; every removed `g0` node is
assumed applied or scheduled; prerequisites of scheduled modules are
assumed applied or scheduled strictly earlier; and captured groups are
non-empty. -/
structure SchedInv (g0 g : List runningModule)
    (groups : List (List TerraformModule)) : Prop where
  nodupAll : ((groups.flatten.map fun m => m.path) ++ graphPaths g).Nodup
  subG : ∀ rm ∈ g, ∃ rm0, rm0 ∈ g0 ∧ rm0.module = rm.module ∧
    rm.dependencies = rm0.dependencies.filter fun d => (graphPaths g).contains d
  schedOrig : ∀ m ∈ groups.flatten, ∃ rm0, rm0 ∈ g0 ∧ rm0.module = m
  removedAcct : ∀ rm0 ∈ g0, rm0.module.path ∉ graphPaths g →
    rm0.module.assumeAlreadyApplied = true ∨ rm0.module ∈ groups.flatten
  prec : ∀ (i : Nat) (hi : i < groups.length), ∀ m ∈ groups[i],
    ∀ rm0 ∈ g0, rm0.module = m → ∀ d ∈ rm0.dependencies,
    ∀ rmd ∈ g0, rmd.module.path = d →
      rmd.module.assumeAlreadyApplied = true ∨
        ∃ (j : Nat) (hj : j < groups.length), j < i ∧ rmd.module ∈ groups[j]
  nonempty : ∀ gr ∈ groups, gr ≠ []

theorem SchedInv_init {g0 : List runningModule} (hnd0 : (graphPaths g0).Nodup)
    (hwf : ∀ rm ∈ g0, ∀ d ∈ rm.dependencies, d ∈ graphPaths g0) :
    SchedInv g0 g0 [] := by
  constructor
  · simpa using hnd0
  · intro rm hrm
    refine ⟨rm, hrm, rfl, ?_⟩
    exact (List.filter_eq_self.mpr fun d hd => contains_iff.mpr (hwf rm hrm d hd)).symm
  · intro m hm
    simp at hm
  · intro rm0 h0 hnot
    exact absurd (List.mem_map_of_mem (fun rm => rm.module.path) h0) hnot
  · intro i hi
    simp at hi
  · intro gr hgr
    simp at hgr

theorem mem_step_group {g : List runningModule} {m : TerraformModule} :
    m ∈ (runGraphStep g).1 ↔ ∃ rm ∈ g, deployP rm = true ∧ rm.module = m := by
  rw [runGraphStep_eq]
  simp only []
  rw [mem_sortByPath]
  constructor
  · intro h
    obtain ⟨rm, hrm, rfl⟩ := List.mem_map.mp h
    exact ⟨rm, List.mem_of_mem_filter hrm, List.of_mem_filter hrm, rfl⟩
  · rintro ⟨rm, hrm, hdep, rfl⟩
    exact List.mem_map_of_mem _ (List.mem_filter.mpr ⟨hrm, hdep⟩)

theorem mem_step_next_paths {g : List runningModule} {d : String} :
    d ∈ graphPaths (runGraphStep g).2 ↔
      ∃ rm ∈ g, readyNode rm = false ∧ rm.module.path = d := by
  rw [runGraphStep_next_paths]
  unfold graphPaths
  constructor
  · intro h
    obtain ⟨rm, hrm, rfl⟩ := List.mem_map.mp h
    refine ⟨rm, List.mem_of_mem_filter hrm, ?_, rfl⟩
    have := List.of_mem_filter hrm
    simpa using this
  · rintro ⟨rm, hrm, hready, rfl⟩
    exact List.mem_map_of_mem _ (List.mem_filter.mpr ⟨hrm, by simp [hready]⟩)

theorem mem_removed_paths {g : List runningModule} {d : String} :
    d ∈ graphPaths (g.filter readyNode) ↔
      ∃ rm ∈ g, readyNode rm = true ∧ rm.module.path = d := by
  unfold graphPaths
  constructor
  · intro h
    obtain ⟨rm, hrm, rfl⟩ := List.mem_map.mp h
    exact ⟨rm, List.mem_of_mem_filter hrm, List.of_mem_filter hrm, rfl⟩
  · rintro ⟨rm, hrm, hready, rfl⟩
    exact List.mem_map_of_mem _ (List.mem_filter.mpr ⟨hrm, hready⟩)

theorem step_paths_split {g : List runningModule} (hnd : (graphPaths g).Nodup) (d : String) :
    d ∈ graphPaths (runGraphStep g).2 ↔
      (d ∈ graphPaths g ∧ d ∉ graphPaths (g.filter readyNode)) := by
  constructor
  · intro h
    obtain ⟨rm, hrm, hready, rfl⟩ := mem_step_next_paths.mp h
    refine ⟨List.mem_map_of_mem _ hrm, ?_⟩
    intro hc
    obtain ⟨rm', hrm', hready', hpath⟩ := mem_removed_paths.mp hc
    have heq : rm' = rm := List.inj_on_of_nodup_map hnd hrm' hrm hpath
    rw [heq] at hready'
    rw [hready] at hready'
    cases hready'
  · rintro ⟨hin, hnot⟩
    obtain ⟨rm, hrm, rfl⟩ := List.mem_map.mp hin
    refine mem_step_next_paths.mpr ⟨rm, hrm, ?_, rfl⟩
    rcases Bool.eq_false_or_eq_true (readyNode rm) with h | h
    · exact absurd (mem_removed_paths.mpr ⟨rm, hrm, h, rfl⟩) hnot
    · exact h

theorem subperm_map {α β : Type} (f : α → β) {l1 l2 : List α} (h : l1.Subperm l2) :
    (l1.map f).Subperm (l2.map f) := by
  obtain ⟨l, hp, hs⟩ := h
  exact ⟨l.map f, hp.map f, List.Sublist.map f hs⟩

theorem contains_step_next {g : List runningModule} (hnd : (graphPaths g).Nodup) (d : String) :
    (graphPaths (runGraphStep g).2).contains d =
      (!(graphPaths (g.filter readyNode)).contains d && (graphPaths g).contains d) := by
  apply Bool.coe_iff_coe.mp
  constructor
  · intro h
    have hsplit := (step_paths_split hnd d).mp (contains_iff.mp h)
    rw [Bool.and_eq_true]
    refine ⟨?_, contains_iff.mpr hsplit.1⟩
    rcases Bool.eq_false_or_eq_true ((graphPaths (g.filter readyNode)).contains d) with hc | hc
    · exact absurd (contains_iff.mp hc) hsplit.2
    · rw [hc]
      rfl
  · intro h
    rw [Bool.and_eq_true] at h
    refine contains_iff.mpr ((step_paths_split hnd d).mpr ⟨contains_iff.mp h.2, ?_⟩)
    intro hc
    have h1 := h.1
    rw [contains_iff.mpr hc] at h1
    cases h1

theorem deployP_not_kept {x : runningModule} :
    ¬(deployP x = true ∧ (!readyNode x) = true) := by
  rintro ⟨h1, h2⟩
  unfold deployP at h1
  unfold readyNode at h2
  rw [Bool.and_eq_true] at h1
  rw [Bool.not_eq_true', Bool.or_eq_false_iff] at h2
  rw [h1.2] at h2
  cases h2.2

theorem SchedInv_step {g0 g : List runningModule} {groups : List (List TerraformModule)}
    (hnd0 : (graphPaths g0).Nodup) (hinv : SchedInv g0 g groups) :
    SchedInv g0 (runGraphStep g).2
      (if (runGraphStep g).1.isEmpty then groups else groups ++ [(runGraphStep g).1]) := by
  have hndg : (graphPaths g).Nodup := (List.nodup_append.mp hinv.nodupAll).2.1
  have hlink : ∀ rm ∈ g, ∀ rm0 ∈ g0, rm0.module.path = rm.module.path →
      (rm0.module = rm.module ∧
        rm.dependencies = rm0.dependencies.filter fun d => (graphPaths g).contains d) := by
    intro rm hrm rm0 h0 hpath
    obtain ⟨rm0', h0', hmod', hdeps'⟩ := hinv.subG rm hrm
    have heq : rm0' = rm0 := List.inj_on_of_nodup_map hnd0 h0' h0 (by rw [hmod', hpath])
    rw [heq] at hmod' hdeps'
    exact ⟨hmod', hdeps'⟩
  -- the new group plus surviving paths fit inside the old graph paths
  have hBC : (((runGraphStep g).1.map fun m => m.path) ++
      graphPaths (runGraphStep g).2).Subperm (graphPaths g) := by
    have h1 : ((runGraphStep g).1.map fun m => m.path).Perm
        ((g.filter deployP).map fun rm => rm.module.path) := by
      rw [runGraphStep_eq]
      simp only []
      have hp := (sortByPath_perm ((g.filter deployP).map fun rm => rm.module)).map
        (fun m => m.path)
      rw [List.map_map] at hp
      exact hp
    have h2 : graphPaths (runGraphStep g).2 =
        (g.filter fun rm => !readyNode rm).map fun rm => rm.module.path := by
      rw [runGraphStep_next_paths]
      rfl
    have hsp : (((g.filter deployP).map fun rm => rm.module.path) ++
        ((g.filter fun rm => !readyNode rm).map fun rm => rm.module.path)).Subperm
        (graphPaths g) := by
      rw [← List.map_append]
      unfold graphPaths
      refine subperm_map _ ?_
      exact filter_append_filter_subperm _ _ g (fun x _ => deployP_not_kept)
    refine List.Subperm.trans (List.Perm.subperm ?_) hsp
    rw [h2]
    exact h1.append_right _
  -- surviving nodes still satisfy the dependency bookkeeping
  have hsubG' : ∀ rm' ∈ (runGraphStep g).2, ∃ rm0, rm0 ∈ g0 ∧ rm0.module = rm'.module ∧
      rm'.dependencies = rm0.dependencies.filter fun d =>
        (graphPaths (runGraphStep g).2).contains d := by
    intro rm' hrm'
    rw [runGraphStep_eq] at hrm'
    simp only [] at hrm'
    obtain ⟨rm, hrmfil, rfl⟩ := List.mem_map.mp hrm'
    have hrm := List.mem_of_mem_filter hrmfil
    obtain ⟨rm0, h0, hmod, hdeps⟩ := hinv.subG rm hrm
    refine ⟨rm0, h0, hmod, ?_⟩
    show rm.dependencies.filter _ = rm0.dependencies.filter _
    rw [hdeps, List.filter_filter]
    apply List.filter_congr
    intro d _
    rw [contains_step_next hndg d]
  -- accounting for nodes removed by this step
  have hremoved' : ∀ rm0 ∈ g0, rm0.module.path ∉ graphPaths (runGraphStep g).2 →
      rm0.module.assumeAlreadyApplied = true ∨ rm0.module ∈ groups.flatten ∨
        rm0.module ∈ (runGraphStep g).1 := by
    intro rm0 h0 hnot
    by_cases hin : rm0.module.path ∈ graphPaths g
    · obtain ⟨rm, hrm, hpath⟩ := List.mem_map.mp hin
      obtain ⟨hmod, hdeps⟩ := hlink rm hrm rm0 h0 hpath.symm
      rcases Bool.eq_false_or_eq_true (readyNode rm) with hready | hready
      · -- rm is ready: assumed applied or deployed
        unfold readyNode at hready
        rw [Bool.or_eq_true] at hready
        rcases hready with haaa | hempty
        · left
          rw [hmod]
          exact haaa
        · rcases Bool.eq_false_or_eq_true rm.module.assumeAlreadyApplied with ha | ha
          · left
            rw [hmod]
            exact ha
          · right; right
            rw [hmod]
            refine mem_step_group.mpr ⟨rm, hrm, ?_, rfl⟩
            unfold deployP
            rw [ha, hempty]
            rfl
      · -- rm survives, contradicting removal
        exact absurd (mem_step_next_paths.mpr ⟨rm, hrm, hready, hpath⟩) hnot
    · rcases hinv.removedAcct rm0 h0 hin with h | h
      · left; exact h
      · right; left; exact h
  by_cases hemp : (runGraphStep g).1.isEmpty = true
  · rw [if_pos hemp]
    have hgrpnil : (runGraphStep g).1 = [] := List.isEmpty_iff.mp hemp
    constructor
    · refine nodup_append_of_subperm hinv.nodupAll ?_
      rw [runGraphStep_next_paths]
      exact (graphPaths_filter_sublist g _).subperm
    · exact hsubG'
    · exact hinv.schedOrig
    · intro rm0 h0 hnot
      rcases hremoved' rm0 h0 hnot with h | h | h
      · left; exact h
      · right; exact h
      · rw [hgrpnil] at h
        cases h
    · exact hinv.prec
    · exact hinv.nonempty
  · rw [if_neg hemp]
    have hgrpne : (runGraphStep g).1 ≠ [] := by
      intro hh
      rw [hh] at hemp
      exact hemp rfl
    have hflat : (groups ++ [(runGraphStep g).1]).flatten =
        groups.flatten ++ (runGraphStep g).1 := by
      rw [List.flatten_append]
      simp
    constructor
    · rw [hflat, List.map_append, List.append_assoc]
      exact nodup_append_of_subperm hinv.nodupAll hBC
    · exact hsubG'
    · intro m hm
      rw [hflat] at hm
      rcases List.mem_append.mp hm with hm | hm
      · exact hinv.schedOrig m hm
      · obtain ⟨rm, hrm, _, hrmmod⟩ := mem_step_group.mp hm
        obtain ⟨rm0, h0, hmod, _⟩ := hinv.subG rm hrm
        exact ⟨rm0, h0, by rw [hmod, hrmmod]⟩
    · intro rm0 h0 hnot
      rcases hremoved' rm0 h0 hnot with h | h | h
      · left; exact h
      · right
        rw [hflat]
        exact List.mem_append.mpr (Or.inl h)
      · right
        rw [hflat]
        exact List.mem_append.mpr (Or.inr h)
    · intro i hi m hm rm0 h0 hmod d hd rmd hmd hpath
      have hlen' : (groups ++ [(runGraphStep g).1]).length = groups.length + 1 := by
        simp
      by_cases hilt : i < groups.length
      · have hm' : m ∈ groups[i] := by
          rw [List.getElem_append_left hilt] at hm
          exact hm
        rcases hinv.prec i hilt m hm' rm0 h0 hmod d hd rmd hmd hpath with h | ⟨j, hj, hji, hjm⟩
        · left; exact h
        · right
          refine ⟨j, by rw [hlen']; omega, hji, ?_⟩
          rw [List.getElem_append_left hj]
          exact hjm
      · have hieq : i = groups.length := by
          rw [hlen'] at hi
          omega
        subst hieq
        have hm' : m ∈ (runGraphStep g).1 := by
          rw [List.getElem_concat_length _ _ _ rfl] at hm
          exact hm
        obtain ⟨rm, hrm, hdP, hrmmod⟩ := mem_step_group.mp hm'
        have hpath0 : rm0.module.path = rm.module.path := by
          rw [hmod, ← hrmmod]
        obtain ⟨hmod2, hdeps⟩ := hlink rm hrm rm0 h0 hpath0
        have hdepsnil : rm.dependencies = [] := by
          unfold deployP at hdP
          rw [Bool.and_eq_true] at hdP
          exact List.isEmpty_iff.mp hdP.2
        have hfilter : rm0.dependencies.filter
            (fun d => (graphPaths g).contains d) = [] := by
          rw [← hdeps, hdepsnil]
        have hdnotin : rmd.module.path ∉ graphPaths g := by
          rw [hpath]
          intro hc
          exact (List.filter_eq_nil_iff.mp hfilter d hd) (contains_iff.mpr hc)
        rcases hinv.removedAcct rmd hmd hdnotin with h | h
        · left; exact h
        · right
          obtain ⟨j, hj, hjm⟩ := mem_flatten_getElem.mp h
          refine ⟨j, by rw [hlen']; omega, by omega, ?_⟩
          rw [List.getElem_append_left hj]
          exact hjm
    · intro gr hgr
      rcases List.mem_append.mp hgr with hgr | hgr
      · exact hinv.nonempty gr hgr
      · rw [List.mem_singleton.mp hgr]
        exact hgrpne

theorem exists_ready_of_acyclic {g0 g : List runningModule}
    {groups : List (List TerraformModule)} {rank : String → Nat}
    (hrank : ∀ rm ∈ g0, ∀ d ∈ rm.dependencies, rank d < rank rm.module.path)
    (hinv : SchedInv g0 g groups) (hne : g ≠ []) :
    ∃ rm ∈ g, readyNode rm = true := by
  cases hmin : List.argmin (fun rm : runningModule => rank rm.module.path) g with
  | none =>
    rw [List.argmin_eq_none] at hmin
    exact absurd hmin hne
  | some rm =>
    have hrmmem : rm ∈ g := List.argmin_mem hmin
    refine ⟨rm, hrmmem, ?_⟩
    rcases Bool.eq_false_or_eq_true (readyNode rm) with hready | hready
    · exact hready
    · exfalso
      unfold readyNode at hready
      rw [Bool.or_eq_false_iff] at hready
      have hdeps_ne : rm.dependencies ≠ [] := by
        intro hh
        rw [hh] at hready
        cases hready.2
      obtain ⟨d, hd⟩ := List.exists_mem_of_ne_nil rm.dependencies hdeps_ne
      obtain ⟨rm0, h0, hmod, hdeps⟩ := hinv.subG rm hrmmem
      rw [hdeps] at hd
      have hd0 : d ∈ rm0.dependencies := List.mem_of_mem_filter hd
      have hdin : d ∈ graphPaths g := contains_iff.mp (List.of_mem_filter hd)
      obtain ⟨rm', hrm', hpath'⟩ := List.mem_map.mp hdin
      have hlt : rank d < rank rm.module.path := by
        have := hrank rm0 h0 d hd0
        rw [hmod] at this
        exact this
      have hge0 := @List.le_of_mem_argmin runningModule Nat _
        (fun rm => rank rm.module.path) g rm' rm hrm' (Option.mem_def.mpr hmin)
      have hge : rank rm.module.path ≤ rank rm'.module.path := hge0
      rw [hpath'] at hge
      omega

theorem groups_length_lt_cap {g0 g : List runningModule}
    {groups : List (List TerraformModule)}
    (hinv : SchedInv g0 g groups) (hlen : g0.length ≤ 1000) (hne : g ≠ []) :
    groups.length < maxDepth := by
  have hsubset : ∀ x ∈ (groups.flatten.map fun m => m.path) ++ graphPaths g,
      x ∈ graphPaths g0 := by
    intro x hx
    rcases List.mem_append.mp hx with hx | hx
    · obtain ⟨m, hm, rfl⟩ := List.mem_map.mp hx
      obtain ⟨rm0, h0, rfl⟩ := hinv.schedOrig m hm
      exact List.mem_map_of_mem _ h0
    · obtain ⟨rm, hrm, rfl⟩ := List.mem_map.mp hx
      obtain ⟨rm0, h0, hmod, _⟩ := hinv.subG rm hrm
      rw [← hmod]
      exact List.mem_map_of_mem _ h0
  have hsp := List.subperm_of_subset hinv.nodupAll hsubset
  have hle := hsp.length_le
  rw [List.length_append, List.length_map] at hle
  have hg0 : (graphPaths g0).length = g0.length := List.length_map g0 _
  rw [hg0] at hle
  have hgne : 1 ≤ (graphPaths g).length := by
    unfold graphPaths
    rw [List.length_map]
    cases g with
    | nil => exact absurd rfl hne
    | cons a as => simp
  have hgrps : groups.length ≤ groups.flatten.length :=
    length_le_flatten_length groups hinv.nonempty
  have hmd : maxDepth = 1000 := rfl
  omega

theorem scheduler_complete :
    ∀ (fuel : Nat) (g0 g : List runningModule) (groups : List (List TerraformModule))
      (rank : String → Nat),
      (graphPaths g0).Nodup →
      (∀ rm ∈ g0, ∀ d ∈ rm.dependencies, rank d < rank rm.module.path) →
      g0.length ≤ 1000 →
      SchedInv g0 g groups →
      g.length < fuel →
      ∃ plan, runGraphAux fuel g groups = some plan ∧ SchedInv g0 [] plan := by
  intro fuel
  induction fuel with
  | zero =>
    intro g0 g groups rank hnd0 hrank hlen hinv hfuel
    omega
  | succ f ih =>
    intro g0 g groups rank hnd0 hrank hlen hinv hfuel
    by_cases hge : g.isEmpty = true
    · have hgnil : g = [] := List.isEmpty_iff.mp hge
      subst hgnil
      exact ⟨groups, runGraphAux_stop (Or.inl rfl), hinv⟩
    · have hne : g ≠ [] := by
        intro hh
        rw [hh] at hge
        exact hge rfl
      have hcap := groups_length_lt_cap hinv hlen hne
      have hguard : ¬(g.isEmpty = true ∨ maxDepth ≤ groups.length) := by
        rintro (h | h)
        · exact hge h
        · omega
      rw [runGraphAux_succ hguard]
      have hinv' := SchedInv_step hnd0 hinv
      obtain ⟨rm, hrm, hready⟩ := exists_ready_of_acyclic hrank hinv hne
      have hshrink : (runGraphStep g).2.length < g.length := by
        rw [runGraphStep_eq]
        simp only []
        rw [List.length_map]
        rw [List.length_filter_lt_length_iff_exists]
        exact ⟨rm, hrm, by simp [hready]⟩
      exact ih g0 (runGraphStep g).2 _ rank hnd0 hrank hlen hinv' (by omega)

theorem graphPaths_forwardNodes (modules : List TerraformModule) :
    graphPaths (forwardNodes modules) = modules.map fun m => m.path := by
  unfold graphPaths forwardNodes
  rw [List.map_map]
  rfl

theorem graphPaths_reverseNodes (modules : List TerraformModule) :
    graphPaths (reverseNodes modules) = modules.map fun m => m.path := by
  unfold graphPaths reverseNodes
  rw [List.map_map]
  rfl

theorem toRunningModules_wf {modules : List TerraformModule} {order : DependencyOrder}
    {g : List runningModule} (h : toRunningModules modules order = .ok g) :
    ∀ rm ∈ g, ∀ d ∈ rm.dependencies, d ∈ graphPaths g := by
  unfold toRunningModules at h
  split at h
  · rename_i hpres
    split at h
    · rw [Except.ok.injEq] at h
      subst h
      intro rm hrm d hd
      rw [graphPaths_forwardNodes]
      obtain ⟨m, hm, rfl⟩ := List.mem_map.mp hrm
      rw [dependencyPathsPresent, List.all_eq_true] at hpres
      have h1 := hpres m hm
      rw [List.all_eq_true] at h1
      have h2 := h1 d hd
      rw [List.any_eq_true] at h2
      obtain ⟨m2, hm2, hbeq⟩ := h2
      rw [beq_iff_eq] at hbeq
      exact hbeq ▸ List.mem_map_of_mem _ hm2
    · rw [Except.ok.injEq] at h
      subst h
      intro rm hrm d hd
      rw [graphPaths_reverseNodes]
      obtain ⟨m, hm, rfl⟩ := List.mem_map.mp hrm
      obtain ⟨m2, hm2, rfl⟩ := List.mem_map.mp hd
      exact List.mem_map_of_mem _ (List.mem_of_mem_filter hm2)
  · cases h

/-- C1 (amended): on a fully resolved module set with distinct paths
whose direction-appropriate dependency graph is acyclic (witnessed by a
rank function) and has at most 1000 modules, getModuleRunGraph
terminates with a plan in which assumeAlreadyApplied modules appear in
no group, every other module appears in exactly one group, and every
scheduled module's direction-appropriate prerequisites are assumed
applied or scheduled in strictly earlier groups. -/
theorem c1_partition_bounded :
    ∀ (stack : Stack) (cmd : String) (g : List runningModule) (rank : String → Nat),
      toRunningModules stack.modules
        (if cmd == CommandNameDestroy then .ReverseOrder else .NormalOrder) = .ok g →
      (graphPaths g).Nodup →
      (∀ rm ∈ g, ∀ d ∈ rm.dependencies, rank d < rank rm.module.path) →
      g.length ≤ 1000 →
      ∃ plan, getModuleRunGraph stack cmd = .ok (some plan) ∧
        (∀ rm ∈ g, rm.module.assumeAlreadyApplied = true → ∀ gr ∈ plan, rm.module ∉ gr) ∧
        (∀ rm ∈ g, rm.module.assumeAlreadyApplied = false →
          ∃ (i : Nat) (hi : i < plan.length), rm.module ∈ plan[i] ∧
            ∀ (j : Nat) (hj : j < plan.length), rm.module ∈ plan[j] → j = i) ∧
        (∀ (i : Nat) (hi : i < plan.length), ∀ m ∈ plan[i], ∀ rm ∈ g, rm.module = m →
          ∀ d ∈ rm.dependencies, ∀ rmd ∈ g, rmd.module.path = d →
            rmd.module.assumeAlreadyApplied = true ∨
              ∃ (j : Nat) (hj : j < plan.length), j < i ∧ rmd.module ∈ plan[j]) := by
  intro stack cmd g rank htr hnd hrank hlen
  have hwf := toRunningModules_wf htr
  have hinv0 := SchedInv_init hnd hwf
  obtain ⟨plan, hrun, hfin⟩ :=
    scheduler_complete (g.length + 1) g g [] rank hnd hrank hlen hinv0 (by omega)
  refine ⟨plan, ?_, ?_, ?_, ?_⟩
  · unfold getModuleRunGraph
    rw [htr]
    show Except.ok (runGraphAux (g.length + 1) g []) = _
    rw [hrun]
  · intro rm hrm haaa gr hgr hmem
    have hf := runGraphAux_no_aaa (g.length + 1) g [] plan
      (fun gr hgr => absurd hgr (List.not_mem_nil gr)) hrun gr hgr rm.module hmem
    rw [haaa] at hf
    cases hf
  · intro rm hrm hnaaa
    have h1 := hfin.removedAcct rm hrm (by simp [graphPaths])
    rcases h1 with h | h
    · rw [hnaaa] at h
      cases h
    · obtain ⟨i, hi, hmem⟩ := mem_flatten_getElem.mp h
      refine ⟨i, hi, hmem, ?_⟩
      intro j hj hmemj
      have hnodup : (plan.flatten.map fun m => m.path).Nodup := by
        have hall := hfin.nodupAll
        simpa [graphPaths] using hall
      exact unique_group_of_flatten_nodup hnodup j i hj hi rm.module hmemj hmem
  · intro i hi m hm rm hrm hmod d hd rmd hmd hpath
    exact hfin.prec i hi m hm rm hrm hmod d hd rmd hmd hpath

/-- Witness for the amended C1 on the two-module dual stack with an
explicit rank function. -/
theorem c1_witness :
    ∃ plan, getModuleRunGraph dualStack CommandNameApply = .ok (some plan) ∧
      (∀ rm ∈ forwardNodes [modA, modB], rm.module.assumeAlreadyApplied = true →
        ∀ gr ∈ plan, rm.module ∉ gr) ∧
      (∀ rm ∈ forwardNodes [modA, modB], rm.module.assumeAlreadyApplied = false →
        ∃ (i : Nat) (hi : i < plan.length), rm.module ∈ plan[i] ∧
          ∀ (j : Nat) (hj : j < plan.length), rm.module ∈ plan[j] → j = i) ∧
      (∀ (i : Nat) (hi : i < plan.length), ∀ m ∈ plan[i],
        ∀ rm ∈ forwardNodes [modA, modB], rm.module = m →
        ∀ d ∈ rm.dependencies, ∀ rmd ∈ forwardNodes [modA, modB], rmd.module.path = d →
          rmd.module.assumeAlreadyApplied = true ∨
            ∃ (j : Nat) (hj : j < plan.length), j < i ∧ rmd.module ∈ plan[j]) :=
  c1_partition_bounded dualStack CommandNameApply (forwardNodes [modA, modB])
    (fun s => if s = "a" then 0 else 1) rfl (by decide) (by decide) (by decide)
